import Mathlib

/-!
Shallow embedding of `YACReader::ConcurrentQueue` (concurrent_queue.h) and
proofs about its public operations.

Two views of the code are used:

* `YACReader.CQ` — the mutable fields of the class (`_queue`, `jobsLeft`,
  `bailout`) together with a direct functional translation of each member
  function's body, used for per-operation claims.
* `YACReader.St` / `YACReader.Step` — a fine-grained transition system in
  which every critical section of the code is one atomic step, with ghost
  fields tracking claimed, canceled and finished jobs, used for the
  cross-thread invariant and safety claims.
-/

namespace YACReader

/-- Observable behaviour of one `std::function<void(void)>` argument:
`null` is an empty function object (invoking it throws
`std::bad_function_call`), `job ok` is a callable body that either returns
normally (`ok = true`) or exits by an exception (`ok = false`). The
dispatcher never inspects this value; it only matters when a worker invokes
the job. -/
inductive JobSpec where
  | null : JobSpec
  | job (ok : Bool) : JobSpec
deriving DecidableEq, Repr

/-- The mutable fields of `ConcurrentQueue` touched by the public
operations: `_queue` (front of the list = front of the queue), `jobsLeft`
and `bailout`. The two mutexes and condition variables have no data
content; notifications are returned as explicit booleans by the operations
below. -/
structure CQ where
  queue : List JobSpec
  jobsLeft : Nat
  bailout : Bool
deriving DecidableEq, Repr

/-- The constructor body's spawn loop
`for (; threadCount != 0; --threadCount) threads.emplace_back(...)`:
it produces one worker thread per iteration and nothing else. -/
def spawnThreads : Nat → List Unit
  | 0 => []
  | n + 1 => () :: spawnThreads n

/-- `ConcurrentQueue::ConcurrentQueue(threadCount)`: initializes
`jobsLeft = 0`, `bailout = false`, an empty queue, and spawns
`threadCount` worker threads. There is no validity check on
`threadCount` (its C++ type `std::size_t` is unsigned). Returns the
initial field state and the spawned thread list. -/
def construct (threadCount : Nat) : CQ × List Unit :=
  (⟨[], 0, false⟩, spawnThreads threadCount)

/-- `ConcurrentQueue::enqueue(job)`: increments `jobsLeft` under
`jobsLeftMutex`, then appends `job` to `_queue` under `queueMutex`, then
notifies `jobAvailableVar` (no state effect). The job argument is never
examined. -/
def enqueue (job : JobSpec) (s : CQ) : CQ :=
  { s with jobsLeft := s.jobsLeft + 1, queue := s.queue ++ [job] }

/-- `ConcurrentQueue::finalizeJobs(count)`: subtracts `count` from
`jobsLeft` under `jobsLeftMutex` and, if the remaining count is zero,
notifies all `_waitVar` waiters. The returned boolean records whether
`notify_all` ran. (The two `assert`s in the body are debug-build guards;
the safety claim below proves they hold at every reachable call site.) -/
def finalizeJobs (count : Nat) (s : CQ) : CQ × Bool :=
  let remainingJobs := s.jobsLeft - count
  ({ s with jobsLeft := remainingJobs }, remainingJobs == 0)

/-- `ConcurrentQueue::cancelPending()`: swaps `_queue` with an empty local
queue under `queueMutex`, then, only if the swapped-out queue was
non-empty, calls `finalizeJobs(size)`; returns `size`. Result:
(returned count, field state afterwards, whether `_waitVar` was
notified). -/
def cancelPending (s : CQ) : Nat × CQ × Bool :=
  let oldQueue := s.queue
  let s1 : CQ := { s with queue := [] }
  let size := oldQueue.length
  if size = 0 then (0, s1, false)
  else
    let fin := finalizeJobs size s1
    (size, fin.1, fin.2)

/-- `ConcurrentQueue::joinAll()` (the whole of shutdown, run by the
destructor): under `queueMutex`, returns early if `bailout` is already
set, otherwise sets it; then notifies all workers and joins every thread
(no field effect). The boolean records whether this call performed the
teardown (false = early return, second call). -/
def joinAll (s : CQ) : CQ × Bool :=
  if s.bailout then (s, false)
  else ({ s with bailout := true }, true)

/-- The tail of one `ConcurrentQueue::nextJob` loop iteration after a job
has been claimed: `job(); finalizeJobs(1);`. If invoking the job throws —
either because the `std::function` is empty (`bad_function_call`) or
because the job body itself raises — the exception propagates out of
`nextJob` and `finalizeJobs` is never reached (`none`); only a normal
return executes `finalizeJobs 1`. -/
def runJobAndFinalize (j : JobSpec) (s : CQ) : Option (CQ × Bool) :=
  match j with
  | .job true => some (finalizeJobs 1 s)
  | .job false => none
  | .null => none

/-!
Fine-grained concurrent model. Each critical section of the C++ code is
one atomic step on `St`. Jobs are identified by the order of their
`enqueue` call (`nextId` is a ghost allocator); `running`, `canceled` and
`finished` are ghost fields recording where each job id has gone, and
`pendingEnq` / `pendingCan` record threads that are between the two
critical sections of `enqueue` (counter already incremented, job not yet
pushed) and of `cancelPending` (queue already swapped out, counter not yet
decremented).
-/

/-- Global state of the dispatcher plus ghost bookkeeping for the
fine-grained interleaving model. -/
structure St where
  nextId : Nat
  queue : List Nat
  jobsLeft : Nat
  bailout : Bool
  running : List Nat
  pendingEnq : List Nat
  pendingCan : List Nat
  canceled : List Nat
  finished : List Nat
deriving DecidableEq, Repr

/-- State right after the constructor: empty queue, `jobsLeft = 0`,
`bailout = false`, no job anywhere. -/
def St.init : St := ⟨0, [], 0, false, [], [], [], [], []⟩

/-- Effect of the first half of `enqueue`: `++jobsLeft` under
`jobsLeftMutex`. The new job gets the fresh id `s.nextId` and waits in
`pendingEnq` for the second half. -/
def St.enq1 (s : St) : St :=
  { s with jobsLeft := s.jobsLeft + 1,
           pendingEnq := s.pendingEnq ++ [s.nextId],
           nextId := s.nextId + 1 }

/-- Effect of the second half of `enqueue`: `_queue.emplace(job)` under
`queueMutex` — job `j` leaves `pendingEnq` (remainder `rest`) and is
appended to the queue. -/
def St.enq2 (j : Nat) (rest : List Nat) (s : St) : St :=
  { s with queue := s.queue ++ [j], pendingEnq := rest }

/-- Effect of a worker's dequeue critical section in `nextJob`: pops the
front job `j` (remaining queue `t`) and starts running it. -/
def St.deq (j : Nat) (t : List Nat) (s : St) : St :=
  { s with queue := t, running := j :: s.running }

/-- Effect of `finalizeJobs(1)` after `job()` returned normally: job `j`
leaves `running` (remainder `rest`), the counter drops by one, `j` is
finished. -/
def St.finOk (j : Nat) (rest : List Nat) (s : St) : St :=
  { s with running := rest, jobsLeft := s.jobsLeft - 1,
           finished := j :: s.finished }

/-- Effect when `job()` threw: the exception propagates out of `nextJob`,
`finalizeJobs` never runs, the worker (at least) terminates. The job is
neither finished nor accounted out of `jobsLeft`. -/
def St.finFail (rest : List Nat) (s : St) : St :=
  { s with running := rest }

/-- Effect of the first critical section of `cancelPending` on a
non-empty queue: `_queue.swap(oldQueue)` — the whole queue content moves
to the canceled set in one step, and the removed size awaits its
`finalizeJobs` decrement in `pendingCan`. -/
def St.can1 (s : St) : St :=
  { s with queue := [],
           canceled := s.canceled ++ s.queue,
           pendingCan := s.queue.length :: s.pendingCan }

/-- Effect of the `finalizeJobs(size)` call of one in-flight
`cancelPending`: subtracts its recorded size `n` from `jobsLeft`
(remaining pending decrements `rest`). -/
def St.can2 (n : Nat) (rest : List Nat) (s : St) : St :=
  { s with pendingCan := rest, jobsLeft := s.jobsLeft - n }

/-- Effect of `joinAll`'s critical section: sets `bailout`. -/
def St.shut (s : St) : St :=
  { s with bailout := true }

/-- One atomic critical section of the C++ code (any thread). -/
inductive Step : St → St → Prop where
  /-- First half of `enqueue` (`++jobsLeft`). -/
  | enq1 (s : St) : Step s s.enq1
  /-- Second half of `enqueue` (`_queue.emplace`): any of the in-flight
  enqueuing threads may run it. -/
  | enq2 (s : St) (a : List Nat) (j : Nat) (b : List Nat)
      (h : s.pendingEnq = a ++ j :: b) :
      Step s (s.enq2 j (a ++ b))
  /-- Worker dequeue: requires `bailout` unset (the worker returns before
  popping otherwise) and a non-empty queue (the wait predicate). -/
  | deq (s : St) (j : Nat) (t : List Nat)
      (hb : s.bailout = false) (hq : s.queue = j :: t) :
      Step s (s.deq j t)
  /-- `job()` returned normally, then `finalizeJobs(1)`. -/
  | finOk (s : St) (a : List Nat) (j : Nat) (b : List Nat)
      (h : s.running = a ++ j :: b) :
      Step s (s.finOk j (a ++ b))
  /-- `job()` threw; no decrement happens. -/
  | finFail (s : St) (a : List Nat) (j : Nat) (b : List Nat)
      (h : s.running = a ++ j :: b) :
      Step s (s.finFail (a ++ b))
  /-- `cancelPending`'s swap on a non-empty queue. (On an empty queue the
  swap leaves the state unchanged.) -/
  | can1 (s : St) (h : s.queue ≠ []) :
      Step s s.can1
  /-- `cancelPending`'s `finalizeJobs(size)`: any in-flight cancel may run
  its decrement. -/
  | can2 (s : St) (a : List Nat) (n : Nat) (b : List Nat)
      (h : s.pendingCan = a ++ n :: b) :
      Step s (s.can2 n (a ++ b))
  /-- `joinAll`'s critical section. -/
  | shut (s : St) : Step s s.shut

/-- All job ids present anywhere in the state, as a multiset. -/
def St.allIds (s : St) : Multiset Nat :=
  (s.queue : Multiset Nat) + (s.running : Multiset Nat)
    + (s.pendingEnq : Multiset Nat) + (s.canceled : Multiset Nat)
    + (s.finished : Multiset Nat)

/-- Inductive invariant of the fine-grained model: job ids are pairwise
distinct and below the allocator; `jobsLeft` dominates every job not yet
finalized (queued, running, mid-enqueue) plus every pending cancel
decrement; pending cancel decrements are positive. -/
structure Inv (s : St) : Prop where
  nodup : s.allIds.Nodup
  lt : ∀ i ∈ s.allIds, i < s.nextId
  count : s.queue.length + s.running.length + s.pendingEnq.length
            + s.pendingCan.sum ≤ s.jobsLeft
  canPos : ∀ n ∈ s.pendingCan, 0 < n

/-- A state reachable from the freshly constructed dispatcher. -/
def Reachable (s : St) : Prop :=
  Relation.ReflTransGen Step St.init s

theorem inv_init : Inv St.init := by
  constructor <;> simp [St.init, St.allIds]

theorem allIds_enq1 (s : St) :
    St.allIds s.enq1 = St.allIds s + {s.nextId} := by
  simp only [St.enq1, St.allIds, ← Multiset.coe_add, ← Multiset.cons_coe,
    ← Multiset.singleton_add, Multiset.coe_singleton]
  abel

theorem allIds_enq2 (s : St) (a : List Nat) (j : Nat) (b : List Nat)
    (h : s.pendingEnq = a ++ j :: b) :
    St.allIds (s.enq2 j (a ++ b)) = St.allIds s := by
  simp only [St.enq2, St.allIds, h, ← Multiset.coe_add, ← Multiset.cons_coe,
    ← Multiset.singleton_add, Multiset.coe_singleton]
  abel

theorem allIds_deq (s : St) (j : Nat) (t : List Nat) (hq : s.queue = j :: t) :
    St.allIds (s.deq j t) = St.allIds s := by
  simp only [St.deq, St.allIds, hq, ← Multiset.coe_add, ← Multiset.cons_coe,
    ← Multiset.singleton_add, Multiset.coe_singleton]
  abel

theorem allIds_finOk (s : St) (a : List Nat) (j : Nat) (b : List Nat)
    (h : s.running = a ++ j :: b) :
    St.allIds (s.finOk j (a ++ b)) = St.allIds s := by
  simp only [St.finOk, St.allIds, h, ← Multiset.coe_add, ← Multiset.cons_coe,
    ← Multiset.singleton_add, Multiset.coe_singleton]
  abel

theorem allIds_finFail (s : St) (a : List Nat) (j : Nat) (b : List Nat)
    (h : s.running = a ++ j :: b) :
    St.allIds s = St.allIds (s.finFail (a ++ b)) + {j} := by
  simp only [St.finFail, St.allIds, h, ← Multiset.coe_add,
    ← Multiset.cons_coe, ← Multiset.singleton_add, Multiset.coe_singleton]
  abel

theorem allIds_can1 (s : St) : St.allIds s.can1 = St.allIds s := by
  simp only [St.can1, St.allIds, ← Multiset.coe_add, ← Multiset.cons_coe,
    ← Multiset.singleton_add, Multiset.coe_singleton]
  abel

theorem inv_step {s s' : St} (hst : Step s s') (hinv : Inv s) : Inv s' := by
  obtain ⟨hnd, hlt, hcount, hpos⟩ := hinv
  cases hst with
  | enq1 =>
      refine ⟨?_, ?_, ?_, fun n hn => hpos n hn⟩
      · rw [allIds_enq1, Multiset.nodup_add]
        refine ⟨hnd, Multiset.nodup_singleton _, ?_⟩
        have hns : s.nextId ∉ St.allIds s := fun hmem =>
          lt_irrefl _ (hlt _ hmem)
        simp [hns]
      · intro i hi
        rw [allIds_enq1, Multiset.mem_add] at hi
        simp only [St.enq1]
        rcases hi with hi | hi
        · exact Nat.lt_succ_of_lt (hlt i hi)
        · simp only [Multiset.mem_singleton] at hi
          omega
      · simp only [St.enq1, List.length_append, List.length_singleton, List.length_nil]
        omega
  | enq2 a j b h =>
      have hA := allIds_enq2 s a j b h
      refine ⟨hA ▸ hnd, fun i hi => hlt i (hA ▸ hi), ?_,
        fun n hn => hpos n hn⟩
      · rw [h] at hcount
        simp only [St.enq2, List.length_append, List.length_cons, List.length_nil]
          at hcount ⊢
        omega
  | deq j t hb hq =>
      have hA := allIds_deq s j t hq
      refine ⟨hA ▸ hnd, fun i hi => hlt i (hA ▸ hi), ?_,
        fun n hn => hpos n hn⟩
      · rw [hq] at hcount
        simp only [St.deq, List.length_cons] at hcount ⊢
        omega
  | finOk a j b h =>
      have hA := allIds_finOk s a j b h
      refine ⟨hA ▸ hnd, fun i hi => hlt i (hA ▸ hi), ?_,
        fun n hn => hpos n hn⟩
      · rw [h] at hcount
        simp only [St.finOk, List.length_append, List.length_cons, List.length_nil]
          at hcount ⊢
        omega
  | finFail a j b h =>
      have hA := allIds_finFail s a j b h
      have hle : St.allIds (s.finFail (a ++ b)) ≤ St.allIds s := by
        rw [hA]; exact Multiset.le_add_right _ _
      refine ⟨Multiset.nodup_of_le hle hnd,
        fun i hi => hlt i (Multiset.subset_of_le hle hi), ?_,
        fun n hn => hpos n hn⟩
      · rw [h] at hcount
        simp only [St.finFail, List.length_append, List.length_cons, List.length_nil]
          at hcount ⊢
        omega
  | can1 h =>
      have hA := allIds_can1 s
      refine ⟨hA ▸ hnd, fun i hi => hlt i (hA ▸ hi), ?_, ?_⟩
      · simp only [St.can1, List.length_nil, List.sum_cons]
        omega
      · intro n hn
        simp only [St.can1, List.mem_cons] at hn
        rcases hn with hn | hn
        · subst hn
          exact List.length_pos.mpr h
        · exact hpos n hn
  | can2 a n b h =>
      have hA : St.allIds (s.can2 n (a ++ b)) = St.allIds s := rfl
      refine ⟨hA ▸ hnd, fun i hi => hlt i (hA ▸ hi), ?_, ?_⟩
      · rw [h] at hcount
        simp only [St.can2, List.sum_append, List.sum_cons] at hcount ⊢
        omega
      · intro m hm
        refine hpos m ?_
        rw [h]
        simp only [St.can2, List.mem_append, List.mem_cons] at hm ⊢
        tauto
  | shut =>
      exact ⟨hnd, hlt, hcount, hpos⟩

theorem inv_reachable {s : St} (h : Reachable s) : Inv s := by
  induction h with
  | refl => exact inv_init
  | tail _ hstep ih => exact inv_step hstep ih

/-- No step ever removes a job from the canceled set. -/
theorem canceled_mono {s s' : St} (hst : Step s s') :
    ∀ i ∈ s.canceled, i ∈ s'.canceled := by
  intro i hi
  cases hst <;>
    simp [St.enq1, St.enq2, St.deq, St.finOk, St.finFail, St.can1, St.can2,
      St.shut, hi]

/-- Under the invariant, a canceled job id occurs nowhere else in the
state: in particular it is neither running nor finished. -/
theorem canceled_not_executed_now {s : St} (hinv : Inv s) {i : Nat}
    (h : i ∈ s.canceled) : i ∉ s.running ∧ i ∉ s.finished := by
  have hnd := hinv.nodup
  simp only [St.allIds] at hnd
  rw [Multiset.nodup_add] at hnd
  obtain ⟨hnd1, _, hdisj⟩ := hnd
  rw [Multiset.nodup_add] at hnd1
  obtain ⟨hnd2, hndD, hdisj1⟩ := hnd1
  constructor
  · intro hrun
    refine Multiset.disjoint_left.mp hdisj1 ?_ (by simpa using h)
    rw [Multiset.mem_add, Multiset.mem_add]
    exact Or.inl (Or.inr (by simpa using hrun))
  · intro hfin
    refine Multiset.disjoint_left.mp hdisj ?_ (by simpa using hfin)
    rw [Multiset.mem_add]
    exact Or.inr (by simpa using h)

/-- Once a job id is canceled in an invariant state, no later state of any
execution has it running or finished: canceled jobs are never executed. -/
theorem canceled_never_executed {s s' : St} (hinv : Inv s) {i : Nat}
    (h : i ∈ s.canceled) (htr : Relation.ReflTransGen Step s s') :
    i ∉ s'.running ∧ i ∉ s'.finished := by
  have key : Inv s' ∧ i ∈ s'.canceled := by
    induction htr with
    | refl => exact ⟨hinv, h⟩
    | tail _ hstep ih =>
        exact ⟨inv_step hstep ih.1, canceled_mono hstep i ih.2⟩
  exact canceled_not_executed_now key.1 key.2

/-- The body of `ConcurrentQueue::waitAll`:
locks `jobsLeftMutex`, and if `jobsLeft > 0` waits on `_waitVar` with
predicate `jobsLeft == 0` (other threads run `Step`s meanwhile);
otherwise it returns at once. The boolean records whether the condition
variable was waited on. The body contains no write to any field. -/
inductive WaitAllRet : St → St → Bool → Prop where
  /-- `jobsLeft` was already `0`: the `if` is not taken and `waitAll`
  returns immediately, in the same state, without touching `_waitVar`. -/
  | immediate (s : St) (h : s.jobsLeft = 0) : WaitAllRet s s false
  /-- `jobsLeft > 0`: the caller blocks on `_waitVar` while other threads
  act, and is released only in a state whose `jobsLeft` is `0`. -/
  | waited (s s' : St) (h : 0 < s.jobsLeft)
      (henv : Relation.ReflTransGen Step s s')
      (hz : s'.jobsLeft = 0) : WaitAllRet s s' true

/-!
Claim theorems.
-/

/-- Claim C1: `cancelPending` swaps the whole pending queue for an empty
one in one atomic critical section, returns exactly the number of jobs
removed, decrements `jobsLeft` by exactly that count (exact as soon as the
counter dominates the queue length, which holds in every reachable
state), and a job that is in the queue at the moment of the swap is never
running nor finished in any later state. -/
theorem cancelPending_spec :
    (∀ s : CQ, (cancelPending s).1 = s.queue.length
      ∧ (cancelPending s).2.1.queue = []
      ∧ (cancelPending s).2.1.bailout = s.bailout
      ∧ (s.queue.length ≤ s.jobsLeft →
          (cancelPending s).2.1.jobsLeft + s.queue.length = s.jobsLeft))
    ∧ (∀ s : St, Inv s → ∀ i ∈ s.queue, ∀ s' : St,
        Relation.ReflTransGen Step s.can1 s' →
        i ∉ s'.running ∧ i ∉ s'.finished) := by
  constructor
  · intro s
    by_cases hq : s.queue = []
    · simp [cancelPending, finalizeJobs, hq]
    · have hlen : s.queue.length ≠ 0 := by
        simpa using fun h => hq (List.length_eq_zero.mp h)
      refine ⟨by simp [cancelPending, finalizeJobs, hlen], ?_, ?_, ?_⟩
      · simp [cancelPending, finalizeJobs, hlen]
      · simp [cancelPending, finalizeJobs, hlen]
      · intro hle
        simp [cancelPending, finalizeJobs, hlen]
        omega
  · intro s hinv i hi s' htr
    have hne : s.queue ≠ [] := by
      intro h
      rw [h] at hi
      exact absurd hi (List.not_mem_nil i)
    have hinv1 : Inv s.can1 := inv_step (Step.can1 s hne) hinv
    have hc : i ∈ s.can1.canceled := by
      simp [St.can1, hi]
    exact canceled_never_executed hinv1 hc htr

/-- Witness for C1 at a concrete dispatcher state: two queued jobs, both
counted in `jobsLeft`; cancel returns 2, empties the queue, drives the
counter to 0, and job id 0 (queued at the swap) is not running or
finished right after the swap. -/
theorem cancelPending_spec_witness :
    ((cancelPending ⟨[JobSpec.job true, JobSpec.null], 2, false⟩).1 = 2
      ∧ (cancelPending ⟨[JobSpec.job true, JobSpec.null], 2, false⟩).2.1.queue
          = []
      ∧ (cancelPending
          ⟨[JobSpec.job true, JobSpec.null], 2, false⟩).2.1.bailout = false
      ∧ (cancelPending
          ⟨[JobSpec.job true, JobSpec.null], 2, false⟩).2.1.jobsLeft + 2 = 2)
    ∧ (0 ∉ (St.can1 ⟨2, [0, 1], 2, false, [], [], [], [], []⟩).running
      ∧ 0 ∉ (St.can1 ⟨2, [0, 1], 2, false, [], [], [], [], []⟩).finished) := by
  have h1 := cancelPending_spec.1 ⟨[JobSpec.job true, JobSpec.null], 2, false⟩
  have h2 := cancelPending_spec.2 ⟨2, [0, 1], 2, false, [], [], [], [], []⟩
    ⟨by decide, by decide, by decide, by decide⟩ 0 (by decide)
    (St.can1 ⟨2, [0, 1], 2, false, [], [], [], [], []⟩) .refl
  exact ⟨⟨h1.1, h1.2.1, h1.2.2.1, h1.2.2.2 (by decide)⟩, h2⟩

/-- Claim C2: in every reachable state of the fine-grained model the
live-job counter dominates the pending-queue length, and one step of any
operation started from any state satisfying the inductive invariant
re-establishes the inequality. -/
theorem jobsLeft_ge_queueLength :
    (∀ s : St, Reachable s → s.queue.length ≤ s.jobsLeft)
    ∧ (∀ s s' : St, Inv s → Step s s' → s'.queue.length ≤ s'.jobsLeft) := by
  constructor
  · intro s hs
    have h := (inv_reachable hs).count
    omega
  · intro s s' hinv hst
    have h := (inv_step hst hinv).count
    omega

/-- Witness for C2 at the initial state and at its first enqueue step. -/
theorem jobsLeft_ge_queueLength_witness :
    St.init.queue.length ≤ St.init.jobsLeft
      ∧ St.init.enq1.queue.length ≤ St.init.enq1.jobsLeft :=
  ⟨jobsLeft_ge_queueLength.1 St.init .refl,
    jobsLeft_ge_queueLength.2 St.init St.init.enq1 inv_init (Step.enq1 _)⟩

/-- Claim C3 counterexample: submitting the empty (null) `std::function`
mutates state — `enqueue` performs no validity check, increments
`jobsLeft` and appends the null job — so "signals an invalid-argument
condition and causes no state mutation" is false at this input. -/
theorem enqueue_null_mutates :
    enqueue JobSpec.null ⟨[], 0, false⟩ = ⟨[JobSpec.null], 1, false⟩
      ∧ (enqueue JobSpec.null ⟨[], 0, false⟩).jobsLeft ≠ 0 := by
  decide

/-- Claim C3 (amended): `enqueue` never rejects: a null job is accepted
exactly like a valid one — counter incremented, job appended at the back —
and the invalid-argument condition (`std::bad_function_call`) surfaces
only when a worker later invokes the job, at which point the counter
decrement is also skipped. -/
theorem enqueue_null_accepted :
    ∀ s : CQ, enqueue JobSpec.null s
        = { s with jobsLeft := s.jobsLeft + 1,
                   queue := s.queue ++ [JobSpec.null] }
      ∧ (enqueue JobSpec.null s).jobsLeft
          = (enqueue (JobSpec.job true) s).jobsLeft
      ∧ (enqueue JobSpec.null s).queue.length
          = (enqueue (JobSpec.job true) s).queue.length
      ∧ runJobAndFinalize JobSpec.null s = none := by
  intro s
  refine ⟨rfl, rfl, ?_, rfl⟩
  simp [enqueue]

/-- Claim C4 counterexample: constructing with worker count 0 is silently
accepted — the constructor returns a normal dispatcher state with zero
worker threads and signals nothing. -/
theorem construct_zero_accepted :
    construct 0 = (⟨[], 0, false⟩, []) ∧ (construct 0).2.length = 0 := by
  decide

/-- Claim C4 (amended): the constructor performs no check on the worker
count (its C++ type is unsigned, so a negative count is not even
expressible): for every `n`, including `0`, it returns normally with
exactly `n` spawned workers, an empty queue, `jobsLeft = 0` and `bailout`
unset; with `n = 0` jobs are still accepted (enqueue works) but no worker
exists to run them. -/
theorem construct_no_validation :
    ∀ n : Nat, (construct n).2.length = n
      ∧ (construct n).1 = ⟨[], 0, false⟩
      ∧ (enqueue (JobSpec.job true) (construct 0).1).jobsLeft = 1 := by
  have hlen : ∀ n, (spawnThreads n).length = n := by
    intro n
    induction n with
    | zero => rfl
    | succ k ih => simpa [spawnThreads] using ih
  intro n
  exact ⟨hlen n, rfl, rfl⟩

/-- Claim C5: `waitAll` returns only in a state whose live-job counter is
zero (it blocks until then), and when the counter is already zero it
returns immediately, in the entry state, without waiting on the condition
variable. -/
theorem waitAll_blocks_until_zero :
    (∀ (s s' : St) (b : Bool), WaitAllRet s s' b → s'.jobsLeft = 0)
    ∧ (∀ s : St, s.jobsLeft = 0 → WaitAllRet s s false) := by
  constructor
  · intro s s' b h
    cases h with
    | immediate h => exact h
    | waited _ _ _ hz => exact hz
  · intro s h
    exact WaitAllRet.immediate s h

/-- Witness for C5 at the initial state, whose counter is zero. -/
theorem waitAll_blocks_until_zero_witness :
    WaitAllRet St.init St.init false ∧ St.init.jobsLeft = 0 :=
  ⟨waitAll_blocks_until_zero.2 St.init rfl,
    waitAll_blocks_until_zero.1 St.init St.init false
      (waitAll_blocks_until_zero.2 St.init rfl)⟩

/-- Claim C6 counterexample: when the claimed job fails internally (the
body throws), the worker's `job(); finalizeJobs(1);` sequence aborts at
`job()` — `finalizeJobs` is never reached, so no decrement of the
counter occurs (the code path yields no successor state at all). -/
theorem runJob_fail_skips_decrement :
    runJobAndFinalize (JobSpec.job false) ⟨[], 5, false⟩ = none := by
  decide

/-- Claim C6 (amended): after a worker finishes a job that returns
normally, it decrements `jobsLeft` by exactly one under its lock and
notifies all wait-all waiters exactly when the decrement reaches zero;
when the job fails internally the exception propagates out of the worker
and no decrement happens. -/
theorem runJob_ok_decrements :
    ∀ s : CQ, 1 ≤ s.jobsLeft →
      ∃ (s' : CQ) (w : Bool),
        runJobAndFinalize (JobSpec.job true) s = some (s', w)
        ∧ s'.jobsLeft + 1 = s.jobsLeft
        ∧ (w = true ↔ s'.jobsLeft = 0)
        ∧ runJobAndFinalize (JobSpec.job false) s = none := by
  intro s h
  refine ⟨{ s with jobsLeft := s.jobsLeft - 1 }, s.jobsLeft - 1 == 0,
    rfl, ?_, ?_, rfl⟩
  · show s.jobsLeft - 1 + 1 = s.jobsLeft
    omega
  · show ((s.jobsLeft - 1 == 0) = true) ↔ s.jobsLeft - 1 = 0
    simp

/-- Witness for C6 (amended) at `jobsLeft = 1`: the decrement lands on 0
and the waiters are notified. -/
theorem runJob_ok_decrements_witness :
    ∃ (s' : CQ) (w : Bool),
      runJobAndFinalize (JobSpec.job true) ⟨[], 1, false⟩ = some (s', w)
      ∧ s'.jobsLeft + 1 = 1
      ∧ (w = true ↔ s'.jobsLeft = 0)
      ∧ runJobAndFinalize (JobSpec.job false) ⟨[], 1, false⟩ = none :=
  runJob_ok_decrements ⟨[], 1, false⟩ (by decide)

/-- Claim C7: shutdown is idempotent — the first `joinAll` leaves
`bailout` set, and a second `joinAll` on the resulting state returns via
the early-return branch (boolean `false`: no notify, no join), changing
no field. -/
theorem joinAll_idempotent :
    ∀ s : CQ, (joinAll s).1.bailout = true
      ∧ joinAll (joinAll s).1 = ((joinAll s).1, false) := by
  intro s
  by_cases h : s.bailout
  · simp [joinAll, h]
  · simp [joinAll, h]

/-- Claim C8: `cancelPending` on an empty queue returns 0 and is a
complete no-op: the resulting field state (queue, counter, shutdown flag)
is the entry state and no notification is issued. -/
theorem cancelPending_empty_noop :
    ∀ s : CQ, s.queue = [] → cancelPending s = (0, s, false) := by
  intro s h
  obtain ⟨q, j, b⟩ := s
  simp only at h
  subst h
  rfl

/-- Witness for C8 at a state with a nonzero counter (a job mid-run). -/
theorem cancelPending_empty_noop_witness :
    cancelPending ⟨[], 3, false⟩ = (0, ⟨[], 3, false⟩, false) :=
  cancelPending_empty_noop ⟨[], 3, false⟩ rfl

/-- Claim C9: the `assert`s inside `finalizeJobs` hold at every reachable
call site: the worker loop calls it with count 1 and a non-empty running
set, so `jobsLeft ≥ 1`; a cancel calls it with the swapped-out size
`n > 0` and `jobsLeft ≥ n` — the subtraction never underflows. -/
theorem finalizeJobs_asserts_hold :
    ∀ s : St, Reachable s →
      (s.running ≠ [] → 1 ≤ s.jobsLeft)
      ∧ (∀ a n b, s.pendingCan = a ++ n :: b → 0 < n ∧ n ≤ s.jobsLeft) := by
  intro s hs
  obtain ⟨_, _, hcount, hpos⟩ := inv_reachable hs
  constructor
  · intro hne
    have : 0 < s.running.length := List.length_pos.mpr hne
    omega
  · intro a n b h
    refine ⟨hpos n (by rw [h]; simp), ?_⟩
    have : n ≤ s.pendingCan.sum := by
      rw [h, List.sum_append, List.sum_cons]
      omega
    omega

/-- Witness for C9 on two concrete reachable states: one with a job
mid-execution (worker-side `finalizeJobs(1)` call about to run), one with
a pending cancel decrement of size 1. -/
theorem finalizeJobs_asserts_hold_witness :
    (1 ≤ (((St.init.enq1).enq2 0 []).deq 0 []).jobsLeft)
      ∧ (0 < 1 ∧ 1 ≤ ((St.init.enq1).enq2 0 []).can1.jobsLeft) := by
  have h1 : Reachable St.init.enq1 :=
    Relation.ReflTransGen.tail .refl (Step.enq1 _)
  have h2 : Reachable ((St.init.enq1).enq2 0 []) :=
    h1.tail (Step.enq2 _ [] 0 [] rfl)
  have hr1 : Reachable (((St.init.enq1).enq2 0 []).deq 0 []) :=
    h2.tail (Step.deq _ 0 [] rfl rfl)
  have hr2 : Reachable ((St.init.enq1).enq2 0 []).can1 :=
    h2.tail (Step.can1 _ (by decide))
  exact ⟨(finalizeJobs_asserts_hold _ hr1).1 (by decide),
    (finalizeJobs_asserts_hold _ hr2).2 [] 1 [] rfl⟩

/-- Claim C10: `waitAll` is observation-only — every state change between
its entry and its return is accounted for by other threads' steps alone,
and when it does not wait (counter already zero) the return state is
exactly the entry state, every field included. -/
theorem waitAll_frame :
    ∀ (s s' : St) (b : Bool), WaitAllRet s s' b →
      Relation.ReflTransGen Step s s' ∧ (b = false → s' = s) := by
  intro s s' b h
  cases h with
  | immediate _ => exact ⟨.refl, fun _ => rfl⟩
  | waited _ _ henv _ => exact ⟨henv, fun hb => by cases hb⟩

/-- Witness for C10: the immediate return at the initial state changes
nothing. -/
theorem waitAll_frame_witness :
    Relation.ReflTransGen Step St.init St.init ∧ St.init = St.init :=
  have h := waitAll_frame St.init St.init false
    (WaitAllRet.immediate St.init rfl)
  ⟨h.1, h.2 rfl⟩

end YACReader
